import Mathlib

/-!
Shallow embedding of the pyapprox snapshot (multifidelity group-ACV/BLUE
estimator, estimator factory, generic Newton solver, spectral-collocation
advection-diffusion solver) used to settle the specification claims.

Numeric arrays are modelled over `ℚ`; a vector is a `List ℚ` and a matrix a
`List (List ℚ)` (row major).  Fallible Python code (raise) is modelled with
`Except String`.
-/

namespace PyApprox

/-- Vectors are rational lists. -/
abbrev Vec := List ℚ

/-- Row-major rational matrices. -/
abbrev Mat := List (List ℚ)

/-- Entry lookup with numpy-like defaulting (out of range reads 0;
only used in positions the source guarantees to be in range). -/
def vAt (v : Vec) (i : ℕ) : ℚ := v.getD i 0

/-- Matrix entry lookup. -/
def mAt (m : Mat) (i j : ℕ) : ℚ := vAt (m.getD i []) j

/-- Dot product, `(a*b).sum` in numpy. -/
def dot (a b : Vec) : ℚ := (List.zipWith (· * ·) a b).sum

/-- Elementwise floor of a vector (`torch.floor`). -/
def floorVec (v : Vec) : Vec := v.map (fun q => ((Int.floor q : ℤ) : ℚ))

/-- Transpose of a row-major matrix (`numpy .T`). -/
def mTranspose (m : Mat) : Mat :=
  (List.range (m.headD []).length).map (fun j => m.map (fun row => vAt row j))

/-- Matrix-vector product (`np.dot(A, u)` for a 1-d `u`). -/
def matVec (m : Mat) (v : Vec) : Vec := m.map (fun row => dot row v)

/-- Elementwise sum of two matrices. -/
def matAdd (a b : Mat) : Mat := List.zipWith (List.zipWith (· + ·)) a b

/-- Scalar multiple of a matrix. -/
def matSmul (c : ℚ) (m : Mat) : Mat := m.map (fun row => row.map (c * ·))

/-- `np.eye n`. -/
def eyeMat (n : ℕ) : Mat :=
  (List.range n).map (fun i => (List.range n).map (fun j => if i = j then 1 else 0))

/-- Vector sum of two vectors. -/
def vecAdd (a b : Vec) : Vec := List.zipWith (· + ·) a b

/-- Scalar multiple of a vector. -/
def vecSmul (c : ℚ) (v : Vec) : Vec := v.map (c * ·)

end PyApprox

namespace PyApprox

/-! ### `pyapprox.multifidelity.groupacv`: subset and allocation machinery -/

/-- `itertools.combinations`: all length-`k` sublists of `l` in lexicographic
(position) order. -/
def combinationsList : ℕ → List ℕ → List (List ℕ)
  | 0, _ => [[]]
  | _ + 1, [] => []
  | k + 1, x :: xs =>
    (combinationsList k xs).map (fun c => x :: c) ++ combinationsList (k + 1) xs

/-- `get_model_subsets(nmodels, max_subset_nmodels)`: every non-empty subset of
`range nmodels` of size at most the bound, enumerated by increasing size. -/
def getModelSubsets (nmodels : ℕ) (maxSubsetNmodels : Option ℕ) : List (List ℕ) :=
  let maxn := maxSubsetNmodels.getD nmodels
  (List.range maxn).flatMap
    (fun k => combinationsList (k + 1) (List.range nmodels))

/-- `_get_allocation_matrix_is`: identity allocation (each subset owns a
private partition). -/
def allocationMatrixIS (nsubsets : ℕ) : Mat := eyeMat nsubsets

/-- `_get_allocation_matrix_nested`: lower-triangular-of-ones allocation
(subset `ii` uses partitions `0..ii`). -/
def allocationMatrixNested (nsubsets : ℕ) : Mat :=
  (List.range nsubsets).map
    (fun i => (List.range nsubsets).map (fun j => if j ≤ i then 1 else 0))

/-- `np.allclose(subset, [0])` for an integer index array: by broadcasting this
holds exactly when every entry is zero. -/
def allZeroSubset (subset : List ℕ) : Bool := subset.all (fun x => x = 0)

/-- Sort key used by `_nest_subsets`:
`(len(subset), tuple(nmodels-subset))`. -/
def nestKey (nmodels : ℕ) (subset : List ℕ) : ℕ × List ℤ :=
  (subset.length, subset.map (fun x => (nmodels : ℤ) - (x : ℤ)))

/-- Strict lexicographic order on the integer-tuple part of the key. -/
def lexLtZ : List ℤ → List ℤ → Bool
  | [], [] => false
  | [], _ :: _ => true
  | _ :: _, [] => false
  | a :: as, b :: bs => if a < b then true else if b < a then false else lexLtZ as bs

/-- Strict order on full nest keys (python tuple comparison). -/
def nestKeyLt (k0 k1 : ℕ × List ℤ) : Bool :=
  if k0.1 < k1.1 then true
  else if k1.1 < k0.1 then false
  else lexLtZ k0.2 k1.2

/-- Insert `x` (a later element of the original list) into the accumulator of a
stable descending sort: `x` goes after every element whose key is `≥` its own. -/
def insertStableDesc (nmodels : ℕ) (x : List ℕ) : List (List ℕ) → List (List ℕ)
  | [] => [x]
  | y :: ys =>
    if nestKeyLt (nestKey nmodels y) (nestKey nmodels x) then x :: y :: ys
    else y :: insertStableDesc nmodels x ys

/-- Stable sort by descending nest key: the semantics of Python
`sorted(..., key=..., reverse=True)` (Python's sort is stable and
`reverse=True` keeps the original order of equal keys). -/
def stableSortDescNestKey (nmodels : ℕ) (l : List (List ℕ)) : List (List ℕ) :=
  l.foldl (fun acc x => insertStableDesc nmodels x acc) []

/-- `_nest_subsets(subsets, nmodels)`: reject any all-zero subset, then order
subsets by descending `(size, nmodels-subset)` key. -/
def nestSubsets (subsets : List (List ℕ)) (nmodels : ℕ) :
    Except String (List (List ℕ)) :=
  if subsets.any allZeroSubset then Except.error "Cannot use subset [0]"
  else Except.ok (stableSortDescNestKey nmodels subsets)

/-- Delete the first subset that `np.allclose`-matches `[0]`
(the `for ... del ... break` loop of `_set_subsets`). -/
def removeFirstZeroSubset : List (List ℕ) → List (List ℕ)
  | [] => []
  | s :: rest => if allZeroSubset s then rest else s :: removeFirstZeroSubset rest

/-- `GroupACVEstimator._set_subsets(subsets, est_type)`: default subsets when
none are given; identity allocation for `"is"`; for `"nested"` the first
model-0-only subset is deleted, the rest are nested and given the
lower-triangular allocation; any other scheme name is an error. -/
def setSubsets (nmodels : ℕ) (subsets : Option (List (List ℕ)))
    (estType : String) : Except String (List (List ℕ) × Mat) :=
  let subs := subsets.getD (getModelSubsets nmodels none)
  if estType = "is" then
    Except.ok (subs, allocationMatrixIS subs.length)
  else if estType = "nested" then
    match nestSubsets (removeFirstZeroSubset subs) nmodels with
    | Except.error e => Except.error e
    | Except.ok nested => Except.ok (nested, allocationMatrixNested nested.length)
  else Except.error ("incorrect est_type " ++ estType ++ " specified")

/-- `GroupACVEstimator._get_partitions_per_model`: entry `(m, p)` is 1 when
some subset `ii` contains model `m` and owns partition `p`. -/
def partitionsPerModel (nmodels : ℕ) (subsets : List (List ℕ)) (amat : Mat) :
    Mat :=
  let npartitions := (amat.headD []).length
  (List.range nmodels).map (fun m =>
    (List.range npartitions).map (fun p =>
      if (List.range subsets.length).any
          (fun ii => decide ((subsets.getD ii []).contains m ∧
            mAt amat ii p = 1)) then 1 else 0))

/-- `GroupACVEstimator._compute_nsamples_per_model`:
`einsum("ji,i->j", partitions_per_model, npartition_samples)`. -/
def nsamplesPerModel (ppm : Mat) (npartitionSamples : Vec) : Vec :=
  ppm.map (fun row => dot row npartitionSamples)

/-- `GroupACVEstimator._estimator_cost`: total cost
`sum(costs * nsamples_per_model)`. -/
def estimatorCost (costs : Vec) (ppm : Mat) (npartitionSamples : Vec) : ℚ :=
  dot costs (nsamplesPerModel ppm npartitionSamples)

/-- `GroupACVEstimator._nhf_samples`:
`(partitions_per_model[0]*npartition_samples).sum()`. -/
def nhfSamples (ppm : Mat) (npartitionSamples : Vec) : ℚ :=
  dot (ppm.headD []) npartitionSamples

/-! ### `pyapprox.multifidelity.groupacv`: joint subset covariance Σ -/

/-- `GroupACVEstimator._get_subset_intersecting_partitions`: indicator that
partition `k` is shared by subsets `ii` and `jj`
(`amat[ii,k] + amat[jj,k] == 2`). -/
def partitionsIntersect (amat : Mat) (ii jj k : ℕ) : ℚ :=
  if mAt amat ii k + mAt amat jj k = 2 then 1 else 0

/-- `GroupACVEstimator._nintersect_samples`:
`einsum("ijk,k->ij", partitions_intersect, npartition_samples)`. -/
def nintersectSamples (amat : Mat) (npartitionSamples : Vec) (ii jj : ℕ) : ℚ :=
  ((List.range npartitionSamples.length).map
    (fun k => partitionsIntersect amat ii jj k * vAt npartitionSamples k)).sum

/-- `_grouped_acv_sigma_block(subset0, subset1, nsamples_intersect,
nsamples_subset0, nsamples_subset1, cov)`. -/
def groupedAcvSigmaBlock (subset0 subset1 : List ℕ)
    (nsamplesIntersect nsamplesSubset0 nsamplesSubset1 : ℚ) (cov : Mat) : Mat :=
  if nsamplesSubset0 * nsamplesSubset1 = 0 then
    subset0.map (fun _ => subset1.map (fun _ => 0))
  else
    subset0.map (fun i => subset1.map (fun j =>
      mAt cov i j * nsamplesIntersect / (nsamplesSubset0 * nsamplesSubset1)))

/-- Block `(ii, jj)` of `_grouped_acv_sigma`: the diagonal block uses the
subset's own sample count thrice, strictly-lower blocks use the intersection
count, and strictly-upper blocks are transposes of their mirror images. -/
def groupedAcvSigmaBlockAt (subsets : List (List ℕ)) (amat : Mat)
    (npartitionSamples : Vec) (cov : Mat) (ii jj : ℕ) : Mat :=
  let nint := nintersectSamples amat npartitionSamples
  if ii = jj then
    groupedAcvSigmaBlock (subsets.getD ii []) (subsets.getD ii [])
      (nint ii ii) (nint ii ii) (nint ii ii) cov
  else if jj < ii then
    groupedAcvSigmaBlock (subsets.getD ii []) (subsets.getD jj [])
      (nint ii jj) (nint ii ii) (nint jj jj) cov
  else
    mTranspose (groupedAcvSigmaBlock (subsets.getD jj []) (subsets.getD ii [])
      (nint jj ii) (nint jj jj) (nint ii ii) cov)

/-- `_grouped_acv_sigma`: the blocks assembled with `vstack`/`hstack`. -/
def groupedAcvSigma (subsets : List (List ℕ)) (amat : Mat)
    (npartitionSamples : Vec) (cov : Mat) : Mat :=
  (List.range subsets.length).flatMap (fun ii =>
    let blocks := (List.range subsets.length).map
      (fun jj => groupedAcvSigmaBlockAt subsets amat npartitionSamples cov ii jj)
    (List.range (subsets.getD ii []).length).map (fun r =>
      blocks.flatMap (fun b => b.getD r [])))

end PyApprox

namespace PyApprox

/-! ### `pyapprox.pde.autopde.util.newton_solve`

The linear-algebra step `sol - step_size*solve(jac, residual)` is abstracted
into a step function `α → α`; the residual norm is a function `α → ℚ`.  The
iteration-limit failure carries the final residual norm, as the source's
error message does. -/

/-- Failure of the generic Newton solver: the iteration cap was reached; the
payload is the final residual norm reported in the error message. -/
inductive NewtonErr where
  | iterLimit (residualNorm : ℚ)
  deriving DecidableEq, Repr

/-- The `while True` loop of `newton_solve`, at iteration `it` with current
iterate `sol`; `r0` is the first recorded residual norm (used by the relative
test).  The convergence tests are guarded by `it > 0`.  The loop is phrased
structurally on `fuelLeft = maxiters - it`, so the source's cap test
`it >= maxiters` is exactly the `fuelLeft = 0` branch, which raises. -/
def newtonLoop (rnorm : α → ℚ) (step : α → α) (tol : ℚ) (relError : Bool)
    (r0 : ℚ) : ℕ → ℕ → α → Except NewtonErr α
  | fuelLeft, it, sol =>
    let rn := rnorm sol
    if 0 < it ∧ relError = false ∧ rn < tol then Except.ok sol
    else if 0 < it ∧ relError = true ∧ rn < tol * r0 then Except.ok sol
    else
      match fuelLeft with
      | 0 => Except.error (NewtonErr.iterLimit rn)
      | f + 1 => newtonLoop rnorm step tol relError r0 f (it + 1) (step sol)

/-- `newton_solve(residual_fun, init_guess, tol, maxiters, ..., rel_error)`:
run the loop from iteration 0; `residual_norms[0]` is the norm of the initial
guess. -/
def newton_solve (rnorm : α → ℚ) (step : α → α) (tol : ℚ) (maxiters : ℕ)
    (relError : Bool) (init : α) : Except NewtonErr α :=
  newtonLoop rnorm step tol relError (rnorm init) maxiters 0 init

end PyApprox

namespace PyApprox

/-! ### `pyapprox.multifidelity.factory.BestEstimator._validate_kwargs` -/

/-- The keyword options relevant to `_validate_kwargs`. -/
structure EstKwargs where
  recursionIndex : Option (List ℕ)
  treeDepth : Option ℕ
  deriving DecidableEq, Repr

/-- `np.allclose(index, np.arange(len(index)))` for integer indices. -/
def isArangeIndex (index : List ℕ) : Bool :=
  index = List.range index.length

/-- `np.allclose(index, np.zeros(len(index)))` for integer indices. -/
def isZeroIndex (index : List ℕ) : Bool :=
  index.all (fun x => x = 0)

/-- `BestEstimator._validate_kwargs(nsubset_lfmodels)`: a recursion index is
truncated to the first `nsubset_lfmodels` entries when it matches
`(0, 1, 2, ...)` or `(0, ..., 0)` and is rejected otherwise; afterwards a
tree depth, when present, is clamped to `nsubset_lfmodels`. -/
def validateKwargs (kwargs : EstKwargs) (nsubsetLfmodels : ℕ) :
    Except String EstKwargs :=
  match kwargs.recursionIndex with
  | none =>
    Except.ok { kwargs with
      treeDepth := kwargs.treeDepth.map (fun d => min d nsubsetLfmodels) }
  | some index =>
    if isArangeIndex index ∨ isZeroIndex index then
      Except.ok
        { recursionIndex := some (index.take nsubsetLfmodels)
          treeDepth := kwargs.treeDepth.map (fun d => min d nsubsetLfmodels) }
    else
      Except.error
        "model selection can only be used with recursion indices (0, 1, 2, ...) or (0, ..., 0) or tree_depth is not None"

end PyApprox

namespace PyApprox

/-! ### `pyapprox.multifidelity.factory`: numerical variance-estimation trials

`_estimate_components(variable, est, funs, ii)` creates
`np.random.RandomState(ii)` and every random draw of the trial comes from that
stream, so the trial is a pure function of its index `ii` once the estimator,
models and variable are fixed.  `drawTrial seed` models
`variable.rvs(random_state=RandomState(seed))` and `postprocess` models the
deterministic remainder of the trial body (model evaluation, estimator value,
high-fidelity value, discrepancies). -/

/-- `_estimate_components`: seed a fresh stream with the trial index and
deterministically post-process the drawn samples. -/
def estimateComponents (drawTrial : ℕ → σ) (postprocess : σ → τ) (ii : ℕ) : τ :=
  postprocess (drawTrial ii)

/-- Worker-pool execution of the trials, parametrised by the order `sched` in
which the pool happens to execute the work items; results are stored at each
item's original index, as `Pool.map` does. -/
def poolRunSched (f : ℕ → τ) (sched : List ℕ) (ntrials : ℕ) :
    List (Option τ) :=
  sched.foldl (fun acc ii => acc.set ii (some (f ii)))
    (List.replicate ntrials none)

/-- `_estimate_components_loop`: sequential `for` loop when
`max_eval_concurrency == 1`, otherwise a `Pool.map` over `range(ntrials)`
(modelled with an arbitrary execution order `sched`). -/
def estimateComponentsLoop (drawTrial : ℕ → σ) (postprocess : σ → τ)
    (ntrials maxEvalConcurrency : ℕ) (sched : List ℕ) : List (Option τ) :=
  if maxEvalConcurrency = 1 then
    (List.range ntrials).map (fun ii =>
      some (estimateComponents drawTrial postprocess ii))
  else
    poolRunSched (estimateComponents drawTrial postprocess) sched ntrials

end PyApprox

namespace PyApprox

/-! ### `SteadyStateAdvectionDiffusionReaction.solve` (diffusion.py)

The Newton iteration of the nonlinear reaction solve.  As for the generic
Newton solver, the linear-algebra update `sol - solve(jac, residual)` is an
abstract step function and the residual norm an abstract `α → ℚ`.  The loop
keeps the history of residual norms and raises `"Newton solve diverged"` when
the current norm exceeds the norm five iterations back. -/

/-- The `while True` loop of the reaction solve at iteration `it`: record the
norm, stop successfully on tolerance, stop successfully (returning the
iterate, with only a printout) when `it > maxiters`, raise divergence when
`it > 4` and the norm exceeds `residual_norms[it-5]`, else take a Newton
step.  The loop is phrased structurally on `fuelLeft = maxiters + 1 - it`, so
the source's cap test `it > maxiters` is exactly the `fuelLeft = 0` branch. -/
def reactionLoop (rnorm : α → ℚ) (step : α → α) (tol : ℚ) :
    ℕ → ℕ → α → List ℚ → Except String α
  | fuelLeft, it, sol, hist =>
    let rn := rnorm sol
    let norms := hist ++ [rn]
    if rn < tol then Except.ok sol
    else
      match fuelLeft with
      | 0 => Except.ok sol
      | f + 1 =>
        if 4 < it ∧ norms.getD (it - 5) 0 < rn then
          Except.error "Newton solve diverged"
        else reactionLoop rnorm step tol f (it + 1) (step sol) norms

/-- `SteadyStateAdvectionDiffusionReaction.solve(sample, initial_guess, tol,
maxiters)` after the initial iterate has been chosen (caller guess or the
linear reaction-free solution). -/
def reactionSolve (rnorm : α → ℚ) (step : α → α) (tol : ℚ) (maxiters : ℕ)
    (init : α) : Except String α :=
  reactionLoop rnorm step tol (maxiters + 1) 0 init []

end PyApprox

namespace PyApprox

/-! ### `TransientAdvectionDiffusion.solve` / `time_step` (diffusion.py)

The transient solve is instrumented with an event trace recording every call
to `qr_factorization` (scipy) and every `qr_solve` against a factorisation.
The factorisation result type is abstract (`φ`); `qr` and `qrSolve` model the
external dense linear-algebra collaborators, and `bcMat`/`bcRhs` model
`apply_boundary_conditions_to_matrix` / `..._to_rhs` of the mesh. -/

/-- Time-stepping method registry `{"RK4", "forward-euler", "backward-euler",
"crank-nicholson"}`. -/
inductive TimeStepMethod where
  | rk4
  | forwardEuler
  | backwardEuler
  | crankNicholson
  deriving DecidableEq, Repr

/-- An implicit method per the dispatch in `solve`
(`time_step_method not in ['RK4', 'forward-euler']`). -/
def TimeStepMethod.isImplicit : TimeStepMethod → Bool
  | rk4 => false
  | forwardEuler => false
  | backwardEuler => true
  | crankNicholson => true

/-- Trace events of the transient solve: a matrix factorisation or a linear
solve against a previously computed factorisation. -/
inductive TransientEvent (φ : Type) where
  | factorize (m : Mat)
  | solveWith (f : φ)

/-- External collaborators of the transient solver: the pivoted QR
factorisation, the solve against its factors, and the mesh's boundary-condition
application to a matrix and to a right-hand side. -/
structure TransientDeps (φ : Type) where
  qr : Mat → φ
  qrSolve : φ → Vec → Vec
  bcMat : Mat → Mat
  bcRhs : Vec → Vec

/-- `get_implicit_timestep_matrix_inverse_factors(matrix)`: the matrix
`I - Δt·matrix` (backward Euler) or `I - Δt/2·matrix` (Crank-Nicolson), with
boundary conditions applied; `matrix` is the sign-flipped spatial operator. -/
def implicitTimestepMatrix (method : TimeStepMethod) (dt : ℚ) (cmat : Mat) :
    Mat :=
  let n := cmat.length
  match method with
  | TimeStepMethod.backwardEuler =>
    matAdd (eyeMat n) (matSmul (-dt) cmat)
  | TimeStepMethod.crankNicholson =>
    matAdd (eyeMat n) (matSmul (-(dt / 2)) cmat)
  | _ => cmat

/-- `get_implicit_time_step_rhs(current_sol, time, sample)`: the per-step
right-hand side built from the current state and the forcing, with boundary
conditions applied. -/
def implicitTimeStepRhs (deps : TransientDeps φ) (method : TimeStepMethod)
    (dt : ℚ) (cmat : Mat) (forcing : ℚ → Vec) (currentSol : Vec) (time : ℚ) :
    Vec :=
  match method with
  | TimeStepMethod.backwardEuler =>
    deps.bcRhs (vecAdd currentSol (vecSmul dt (forcing (time + dt))))
  | TimeStepMethod.crankNicholson =>
    deps.bcRhs (vecAdd
      (matVec (matAdd (eyeMat cmat.length) (matSmul (dt / 2) cmat)) currentSol)
      (vecSmul (dt / 2) (vecAdd (forcing time) (forcing (time + dt)))))
  | _ => currentSol

/-- `time_step(current_sol, time, sample)` for an implicit method: build the
right-hand side and solve it against the cached factors, emitting a
`solveWith` event. -/
def implicitTimeStep (deps : TransientDeps φ) (method : TimeStepMethod)
    (dt : ℚ) (cmat : Mat) (forcing : ℚ → Vec) (factors : φ)
    (currentSol : Vec) (time : ℚ) : Vec × List (TransientEvent φ) :=
  let rhs := implicitTimeStepRhs deps method dt cmat forcing currentSol time
  (deps.qrSolve factors rhs, [TransientEvent.solveWith factors])

/-- The `while time < final_time - dt_tol` loop, with explicit fuel (the
source loop would not terminate for a non-positive step size). -/
def transientLoop (deps : TransientDeps φ) (method : TimeStepMethod)
    (dt finalTime dtTol : ℚ) (cmat : Mat) (forcing : ℚ → Vec) (factors : φ) :
    ℕ → ℚ → Vec → Option (Vec × List (TransientEvent φ))
  | 0, _, _ => none
  | fuel + 1, time, currentSol =>
    if time < finalTime - dtTol then
      let stepOut := implicitTimeStep deps method dt cmat forcing factors
        currentSol time
      match transientLoop deps method dt finalTime dtTol cmat forcing factors
          fuel (min (time + dt) finalTime) stepOut.1 with
      | none => none
      | some (finalSol, tailEvents) => some (finalSol, stepOut.2 ++ tailEvents)
    else some (currentSol, [])

/-- `TransientAdvectionDiffusion.solve(sample)` for an implicit method:
factorize `I - θ·Δt·L` once (emitting the single `factorize` event) before the
time loop, then step with the cached factors.  `cmat` is the sign-flipped
spatial operator (`-form_collocation_matrix(...)`); `dt_tol = 1e-12`. -/
def transientSolveImplicit (deps : TransientDeps φ) (method : TimeStepMethod)
    (dt finalTime : ℚ) (cmat : Mat) (forcing : ℚ → Vec) (initialSol : Vec)
    (fuel : ℕ) : Option (Vec × List (TransientEvent φ)) :=
  let amat := deps.bcMat (implicitTimestepMatrix method dt cmat)
  let factors := deps.qr amat
  match transientLoop deps method dt finalTime (1 / 10 ^ 12) cmat forcing
      factors fuel 0 initialSol with
  | none => none
  | some (finalSol, events) =>
    some (finalSol, TransientEvent.factorize amat :: events)

/-- Trivial linear-algebra collaborators used to instantiate the transient
solve: the factorization is the matrix itself and boundary conditions are
the identity. -/
def transientDepsId : TransientDeps Mat :=
  { qr := fun m => m, qrSolve := fun _ v => v, bcMat := fun m => m,
    bcRhs := fun v => v }

end PyApprox

namespace PyApprox

/-! ### `GroupACVEstimator.__init__` / `_check_cov`: aliasing of the covariance

A store of matrix-valued arrays models numpy/torch memory: an array reference
is an index into the store, `np.ndarray.copy` allocates a fresh array, and the
`_torch_wrappers.asarray` wrapper (`torch.as_tensor` on a float64 numpy array)
returns a tensor sharing the input array's memory, i.e. the same reference. -/

/-- A store of arrays; references are indices. -/
abbrev ArrayStore := List Mat

/-- Read the array held at a reference. -/
def readArray (s : ArrayStore) (r : ℕ) : Mat := s.getD r []

/-- Allocate a fresh array, returning the new store and the new reference. -/
def allocArray (s : ArrayStore) (a : Mat) : ArrayStore × ℕ :=
  (s ++ [a], s.length)

/-- `cov.copy()`: allocate a fresh array with the same contents. -/
def npCopy (s : ArrayStore) (r : ℕ) : ArrayStore × ℕ :=
  allocArray s (readArray s r)

/-- `asarray(array)` = `torch.as_tensor(array, dtype=torch.double)`: for a
float64 numpy input the tensor shares the array's memory, so the reference is
unchanged. -/
def asarrayRef (r : ℕ) : ℕ := r

/-- In-place mutation `arr[i, j] = v` of the array behind a reference. -/
def writeArrayEntry (s : ArrayStore) (r i j : ℕ) (v : ℚ) : ArrayStore :=
  s.set r ((readArray s r).set i (((readArray s r).getD i []).set j v))

/-- The covariance references held by a constructed `GroupACVEstimator`:
`checkCovRef` is the defensive copy made by `_check_cov` and `covRef` is the
binding of `self._cov` when `__init__` returns. -/
structure GroupACVCovState where
  checkCovRef : ℕ
  covRef : ℕ
  deriving DecidableEq, Repr

/-- The covariance-handling part of `GroupACVEstimator.__init__`:
`self._cov, self._costs = self._check_cov(cov, costs)` binds the defensive
copy, but the later line `self._cov = asarray(cov)` rebinds `self._cov` to a
tensor sharing the caller's array. -/
def groupACVInitCov (s : ArrayStore) (callerCovRef : ℕ) :
    ArrayStore × GroupACVCovState :=
  let copied := npCopy s callerCovRef
  let s1 := copied.1
  let checkCovRef := copied.2
  let covRef := asarrayRef callerCovRef
  (s1, { checkCovRef := checkCovRef, covRef := covRef })

/-- A value the estimator subsequently computes from its stored covariance:
the joint subset covariance `Σ` read through `self._cov`. -/
def estimatorSigmaFromStore (s : ArrayStore) (est : GroupACVCovState)
    (subsets : List (List ℕ)) (amat : Mat) (npartitionSamples : Vec) : Mat :=
  groupedAcvSigma subsets amat npartitionSamples (readArray s est.covRef)

end PyApprox

namespace PyApprox

/-! ### `GroupACVEstimator.insert_pilot_values` -/

/-- Truthiness of a boolean numpy array, as used in an `if` statement: empty
arrays are falsy, one-element arrays take their entry's value, anything larger
raises. -/
def numpyTruthy (b : List (List Bool)) : Except String Bool :=
  match b.flatMap (fun row => row) with
  | [] => Except.ok false
  | [x] => Except.ok x
  | _ => Except.error "truth value of an array with more than one element is ambiguous"

/-- Python list/array slice `l[:ub]` for a possibly negative bound. -/
def pySliceTo (l : List α) (ub : ℤ) : List α :=
  if 0 ≤ ub then l.take ub.toNat else l.take ((l.length : ℤ) + ub).toNat

/-- Python list/array slice `l[ub:]` for a possibly negative bound. -/
def pySliceFrom (l : List α) (ub : ℤ) : List α :=
  if 0 ≤ ub then l.drop ub.toNat else l.drop ((l.length : ℤ) + ub).toNat

/-- `np.argmax`: index of the first occurrence of the maximum; errors on an
empty sequence. -/
def argmaxFirst (vals : List ℚ) : Option ℕ :=
  match vals with
  | [] => none
  | v :: vs =>
    some (vs.foldl
      (fun acc x =>
        let best := acc.1
        let bestVal := acc.2.1
        let idx := acc.2.2
        if bestVal < x then (idx, x, idx + 1) else (best, bestVal, idx + 1))
      (0, v, 1)).1

/-- The estimator state read by `insert_pilot_values`: the subset list, the
high-fidelity row of `partitions_per_model`, the rounded partition sample
counts and the per-model per-partition sample splits. -/
structure PilotSpliceState where
  subsets : List (List ℕ)
  partitionsPerModelHf : Vec
  roundedNpartitionSamples : Vec
  optSampleSplits : List (List (ℤ × ℤ))
  deriving Repr

/-- `np.where(self.partitions_per_model[0] == 1)[0]`. -/
def activeHfPartitions (ppm0 : Vec) : List ℕ :=
  (List.range ppm0.length).filter (fun p => vAt ppm0 p = 1)

/-- The `for model_id in self.subsets[partition_id]` loop of
`insert_pilot_values`, threading the (mutated-in-place) `values_per_model`. -/
def insertPilotLoop (st : PilotSpliceState) (pilotValues : List Mat)
    (partitionId : ℕ) : List ℕ → List Mat → Except String (List Mat)
  | [], values => Except.ok values
  | modelId :: rest, values =>
    let pv := pilotValues.getD modelId []
    let npilot : ℕ := pv.length
    match numpyTruthy ((pilotValues.getD 0 []).map
        (fun row => row.map (fun x => decide (¬((npilot : ℚ) = x))))) with
    | Except.error e => Except.error e
    | Except.ok true =>
      Except.error "Must have the same number of pilot values for each model"
    | Except.ok false =>
      match numpyTruthy ((values.getD modelId []).map
          (fun row => row.map (fun x => decide
            (vAt st.roundedNpartitionSamples partitionId <
              (npilot : ℚ) + x)))) with
      | Except.error e => Except.error e
      | Except.ok true => Except.error "Too many pilot values"
      | Except.ok false =>
        let split := ((st.optSampleSplits.getD modelId []).getD partitionId
          (0, 0))
        let ub := split.2 - (npilot : ℤ)
        let v := values.getD modelId []
        let newV := pySliceTo v ub ++ pv ++ pySliceFrom v ub
        insertPilotLoop st pilotValues partitionId rest
          (values.set modelId newV)

/-- `GroupACVEstimator.insert_pilot_values(pilot_values, values_per_model)`:
splice the pilot values into the model-0 partition with the most samples; the
first component of the result is the returned `new_values_per_model` list and
the second is the mutated `values_per_model` argument. -/
def insert_pilot_values (st : PilotSpliceState) (pilotValues : List Mat)
    (valuesPerModel : List Mat) : Except String (List Mat × List Mat) :=
  let active := activeHfPartitions st.partitionsPerModelHf
  match argmaxFirst (active.map (fun p => vAt st.roundedNpartitionSamples p)) with
  | none => Except.error "attempt to get argmax of an empty sequence"
  | some k =>
    let partitionId := active.getD k 0
    match insertPilotLoop st pilotValues partitionId
        (st.subsets.getD partitionId []) valuesPerModel with
    | Except.error e => Except.error e
    | Except.ok vals => Except.ok ([], vals)

end PyApprox

namespace PyApprox

/-! ## Helper lemmas -/

theorem dot_nil_right (w : Vec) : dot w [] = 0 := by
  cases w <;> simp [dot]

theorem dot_cons_cons (a b : ℚ) (w v : Vec) :
    dot (a :: w) (b :: v) = a * b + dot w v := by
  simp [dot]

theorem forall2_le_floorVec (v : Vec) : List.Forall₂ (· ≤ ·) (floorVec v) v := by
  induction v with
  | nil => simp [floorVec]
  | cons a t ih => exact List.Forall₂.cons (Int.floor_le a) ih

theorem forall2_map_of_le {α : Type} (l : List α) (f g : α → ℚ)
    (h : ∀ a ∈ l, f a ≤ g a) :
    List.Forall₂ (· ≤ ·) (l.map f) (l.map g) := by
  induction l with
  | nil => simp
  | cons a t ih =>
    exact List.Forall₂.cons (h a (by simp))
      (ih (fun b hb => h b (by simp [hb])))

theorem dot_le_dot_right (w : Vec) : ∀ x y : Vec, (∀ a ∈ w, 0 ≤ a) →
    List.Forall₂ (· ≤ ·) x y → dot w x ≤ dot w y := by
  induction w with
  | nil => intro x y _ _; simp [dot]
  | cons a t ih =>
    intro x y hw h
    cases h with
    | nil => simp [dot]
    | @cons b c xs ys hbc htail =>
      rw [dot_cons_cons, dot_cons_cons]
      have h1 : a * b ≤ a * c :=
        mul_le_mul_of_nonneg_left hbc (hw a (by simp))
      have h2 : dot t xs ≤ dot t ys :=
        ih xs ys (fun q hq => hw q (by simp [hq])) htail
      linarith

theorem dot_floor_lower (w : Vec) : ∀ v : Vec, (∀ a ∈ w, 0 ≤ a) →
    dot w v - w.sum ≤ dot w (floorVec v) := by
  induction w with
  | nil => intro v _; simp [dot]
  | cons a t ih =>
    intro v hw
    cases v with
    | nil =>
      have ha := hw a (by simp)
      have hts : (0 : ℚ) ≤ t.sum :=
        List.sum_nonneg (fun q hq => hw q (List.mem_cons_of_mem a hq))
      simp only [dot_nil_right, floorVec, List.map_nil, List.sum_cons]
      linarith
    | cons b u =>
      have ha := hw a (by simp)
      have hfl : b - 1 ≤ ((Int.floor b : ℤ) : ℚ) :=
        le_of_lt (Int.sub_one_lt_floor b)
      have h1 : a * b - a ≤ a * ((Int.floor b : ℤ) : ℚ) := by
        have := mul_le_mul_of_nonneg_left hfl ha
        nlinarith
      have h2 := ih u (fun q hq => hw q (by simp [hq]))
      simp only [floorVec, List.map_cons, dot_cons_cons, List.sum_cons]
      have : dot t u - t.sum ≤ dot t (floorVec u) := h2
      simp only [floorVec] at this
      linarith

theorem partitionsPerModel_entry (nmodels : ℕ) (subsets : List (List ℕ))
    (amat : Mat) :
    ∀ row ∈ partitionsPerModel nmodels subsets amat, ∀ q ∈ row, q = 0 ∨ q = 1 := by
  intro row hrow q hq
  simp only [partitionsPerModel, List.mem_map] at hrow
  obtain ⟨m, _, rfl⟩ := hrow
  simp only [List.mem_map] at hq
  obtain ⟨p, _, rfl⟩ := hq
  split <;> simp

theorem partitionsPerModel_nonneg (nmodels : ℕ) (subsets : List (List ℕ))
    (amat : Mat) :
    ∀ row ∈ partitionsPerModel nmodels subsets amat, ∀ q ∈ row, 0 ≤ q := by
  intro row hrow q hq
  rcases partitionsPerModel_entry nmodels subsets amat row hrow q hq with h | h <;>
    simp [h]

theorem headD_eq_or_mem {α : Type} (l : List α) (d : α) :
    l.headD d = d ∨ l.headD d ∈ l := by
  cases l <;> simp

theorem floorVec_nonneg_int (v : Vec) (hv : ∀ a ∈ v, 0 ≤ a) :
    ∀ q ∈ floorVec v, 0 ≤ q ∧ ∃ z : ℤ, q = (z : ℚ) := by
  intro q hq
  simp only [floorVec, List.mem_map] at hq
  obtain ⟨a, ha, rfl⟩ := hq
  refine ⟨?_, ⟨Int.floor a, rfl⟩⟩
  have : (0 : ℤ) ≤ Int.floor a := Int.floor_nonneg.2 (hv a ha)
  exact_mod_cast this

end PyApprox

namespace PyApprox

/-! ## Claim C1: properties of the rounded sample allocation -/

/-- C1 (amended): after `allocate_samples` succeeds with rounding enabled, the
partition sample counts produced by `_set_optimized_params` — the elementwise
floor of a feasible optimizer solution — are non-negative integers, and the
realized total cost does not exceed the target cost.  The rounded total
model-0 sample count can only be guaranteed to stay above the requested floor
minus the number of partitions covering model 0, because each active
partition's count can lose up to one sample to the floor operation. -/
theorem groupacv_allocate_samples_rounded (nmodels : ℕ)
    (subsets : List (List ℕ)) (amat : Mat) (costs x : Vec)
    (targetCost minNhfSamples : ℚ)
    (hcosts : ∀ c ∈ costs, 0 ≤ c)
    (hx : ∀ v ∈ x, 0 ≤ v)
    (hcost : estimatorCost costs (partitionsPerModel nmodels subsets amat) x
      ≤ targetCost)
    (hnhf : minNhfSamples
      ≤ nhfSamples (partitionsPerModel nmodels subsets amat) x) :
    (∀ q ∈ floorVec x, 0 ≤ q ∧ ∃ z : ℤ, q = (z : ℚ)) ∧
    estimatorCost costs (partitionsPerModel nmodels subsets amat)
      (floorVec x) ≤ targetCost ∧
    minNhfSamples - ((partitionsPerModel nmodels subsets amat).headD []).sum
      ≤ nhfSamples (partitionsPerModel nmodels subsets amat) (floorVec x) := by
  set ppm := partitionsPerModel nmodels subsets amat with hppm
  have hrows : ∀ row ∈ ppm, ∀ q ∈ row, 0 ≤ q :=
    partitionsPerModel_nonneg nmodels subsets amat
  have hhead : ∀ q ∈ ppm.headD [], 0 ≤ q := by
    rcases headD_eq_or_mem ppm [] with h | h
    · rw [h]; simp
    · exact hrows _ h
  refine ⟨floorVec_nonneg_int x hx, ?_, ?_⟩
  · -- cost after flooring is bounded by cost before flooring
    have hmono : List.Forall₂ (· ≤ ·) (nsamplesPerModel ppm (floorVec x))
        (nsamplesPerModel ppm x) := by
      exact forall2_map_of_le ppm _ _ (fun row hrow =>
        dot_le_dot_right row (floorVec x) x (hrows row hrow)
          (forall2_le_floorVec x))
    have := dot_le_dot_right costs _ _ hcosts hmono
    exact le_trans this hcost
  · -- flooring loses at most one sample per model-0 partition
    have := dot_floor_lower (ppm.headD []) x hhead
    have h2 : nhfSamples ppm x - (ppm.headD []).sum
        ≤ nhfSamples ppm (floorVec x) := this
    linarith

/-- Witness for C1 at a concrete feasible optimizer output: two models,
subsets `{0}` and `{0,1}` with the `"is"` allocation, unit costs, solution
`(2, 3/2)`, target cost 6 and high-fidelity floor 2. -/
theorem groupacv_allocate_samples_rounded_witness :
    (∀ q ∈ floorVec [2, 3/2], 0 ≤ q ∧ ∃ z : ℤ, q = (z : ℚ)) ∧
    estimatorCost [1, 1]
      (partitionsPerModel 2 [[0], [0, 1]] (allocationMatrixIS 2))
      (floorVec [2, 3/2]) ≤ 6 ∧
    (2 : ℚ) - ((partitionsPerModel 2 [[0], [0, 1]]
      (allocationMatrixIS 2)).headD []).sum
      ≤ nhfSamples (partitionsPerModel 2 [[0], [0, 1]] (allocationMatrixIS 2))
        (floorVec [2, 3/2]) :=
  groupacv_allocate_samples_rounded 2 [[0], [0, 1]] (allocationMatrixIS 2)
    [1, 1] [2, 3/2] 6 2 (by norm_num)
    (by norm_num)
    (by norm_num [estimatorCost, nsamplesPerModel, partitionsPerModel,
      allocationMatrixIS, eyeMat, dot, mAt, vAt, List.range_succ])
    (by norm_num [nhfSamples, partitionsPerModel, allocationMatrixIS, eyeMat,
      dot, mAt, vAt, List.range_succ])

/-- C1 counterexample: the claim as stated — that after a successful rounded
allocation the total model-0 sample count meets any positive requested floor —
is false.  With subsets `{0}` and `{0,1}` ("is" scheme), unit costs, floor 1
and target cost 2, the optimizer output `(1/2, 1/2)` is feasible (non-negative,
cost `3/2 ≤ 2`, model-0 samples `1 ≥ 1`), yet after flooring the model-0
sample count is `0 < 1`. -/
theorem groupacv_allocate_samples_nhf_counterexample :
    ¬ (∀ (nmodels : ℕ) (subsets : List (List ℕ)) (amat : Mat)
        (costs x : Vec) (targetCost minNhfSamples : ℚ),
      (∀ c ∈ costs, 0 ≤ c) → (∀ v ∈ x, 0 ≤ v) →
      estimatorCost costs (partitionsPerModel nmodels subsets amat) x
        ≤ targetCost →
      minNhfSamples
        ≤ nhfSamples (partitionsPerModel nmodels subsets amat) x →
      0 < minNhfSamples →
      minNhfSamples ≤ nhfSamples (partitionsPerModel nmodels subsets amat)
        (floorVec x)) := by
  intro h
  have := h 2 [[0], [0, 1]] (allocationMatrixIS 2) [1, 1] [1/2, 1/2] 2 1
    (by norm_num)
    (by norm_num)
    (by norm_num [estimatorCost, nsamplesPerModel, partitionsPerModel,
      allocationMatrixIS, eyeMat, dot, mAt, vAt, List.range_succ])
    (by norm_num [nhfSamples, partitionsPerModel, allocationMatrixIS, eyeMat,
      dot, mAt, vAt, List.range_succ])
    (by norm_num)
  have hlt : nhfSamples (partitionsPerModel 2 [[0], [0, 1]]
      (allocationMatrixIS 2)) (floorVec [1/2, 1/2]) < 1 := by
    norm_num [nhfSamples, partitionsPerModel, allocationMatrixIS, eyeMat, dot,
      mAt, vAt, List.range_succ, floorVec]
  linarith

end PyApprox

namespace PyApprox

/-! ## Claim C5: recursion-index reduction in the best-estimator search -/

/-- C5 (amended): during the subset search, a supplied recursion index is
reduced to a model subset exactly when it matches the non-decreasing-from-zero
pattern `(0, 1, 2, ...)` or the all-zero pattern; any other recursion index is
rejected with an invalid-input error even when a tree-depth bound is also
supplied. -/
theorem validate_kwargs_recursion_index (kwargs : EstKwargs) (n : ℕ)
    (index : List ℕ) (h : kwargs.recursionIndex = some index) :
    (∃ out, validateKwargs kwargs n = Except.ok out)
      ↔ (isArangeIndex index = true ∨ isZeroIndex index = true) := by
  constructor
  · rintro ⟨out, hout⟩
    by_contra hno
    push_neg at hno
    simp only [validateKwargs, h] at hout
    rw [if_neg] at hout
    · exact Except.noConfusion hout
    · rintro (h1 | h2)
      · exact absurd h1 hno.1
      · exact absurd h2 hno.2
  · intro hp
    refine ⟨{ recursionIndex := some (index.take n),
              treeDepth := kwargs.treeDepth.map (fun d => min d n) }, ?_⟩
    simp only [validateKwargs, h]
    rw [if_pos hp]

/-- Witness for C5 at the concrete input `recursion_index = (0, 1)`,
`tree_depth = 5`, one low-fidelity model in the subset. -/
theorem validate_kwargs_recursion_index_witness :
    ∃ out, validateKwargs ⟨some [0, 1], some 5⟩ 1 = Except.ok out :=
  (validate_kwargs_recursion_index ⟨some [0, 1], some 5⟩ 1 [0, 1] rfl).2
    (by decide)

/-- C5 counterexample: supplying a tree-depth bound does not make an
irregular recursion index acceptable.  With `recursion_index = (1,)` and
`tree_depth = 3` the reduction still fails, although the claim says any
recursion index is reduced once a tree-depth bound is separately supplied. -/
theorem validate_kwargs_tree_depth_counterexample :
    ¬ (∀ (kwargs : EstKwargs) (n : ℕ) (index : List ℕ),
        kwargs.recursionIndex = some index →
        kwargs.treeDepth.isSome = true →
        ∃ out, validateKwargs kwargs n = Except.ok out) := by
  intro h
  obtain ⟨out, hout⟩ := h ⟨some [1], some 3⟩ 1 [1] rfl rfl
  simp [validateKwargs, isArangeIndex, isZeroIndex, List.range_succ] at hout

end PyApprox

namespace PyApprox

/-! ## Claim C6: the nested scheme and the model-0-only subset -/

theorem insertStableDesc_perm (n : ℕ) (x : List ℕ) (l : List (List ℕ)) :
    (insertStableDesc n x l).Perm (x :: l) := by
  induction l with
  | nil => simp [insertStableDesc]
  | cons y ys ih =>
    simp only [insertStableDesc]
    split
    · exact List.Perm.refl _
    · exact (ih.cons y).trans (List.Perm.swap x y ys)

theorem foldl_insertStableDesc_perm (n : ℕ) :
    ∀ (l acc : List (List ℕ)),
      (l.foldl (fun a x => insertStableDesc n x a) acc).Perm (l ++ acc) := by
  intro l
  induction l with
  | nil => intro acc; simp
  | cons x xs ih =>
    intro acc
    have h1 := ih (insertStableDesc n x acc)
    have h2 : (xs ++ insertStableDesc n x acc).Perm (xs ++ x :: acc) :=
      List.Perm.append_left xs (insertStableDesc_perm n x acc)
    have h3 : (xs ++ x :: acc).Perm (x :: (xs ++ acc)) :=
      List.perm_middle
    simpa using (h1.trans h2).trans h3

theorem stableSortDescNestKey_perm (n : ℕ) (l : List (List ℕ)) :
    (stableSortDescNestKey n l).Perm l := by
  simpa using foldl_insertStableDesc_perm n l []

theorem removeFirstZeroSubset_no_zero (l : List (List ℕ))
    (h : l.countP (fun s => allZeroSubset s) ≤ 1) :
    ∀ s ∈ removeFirstZeroSubset l, allZeroSubset s = false := by
  induction l with
  | nil => simp [removeFirstZeroSubset]
  | cons x xs ih =>
    simp only [removeFirstZeroSubset]
    by_cases h1 : allZeroSubset x
    · rw [if_pos h1]
      intro s hs
      have hc : xs.countP (fun s => allZeroSubset s) = 0 := by
        rw [List.countP_cons, if_pos] at h
        · omega
        · simpa using h1
      have := List.countP_eq_zero.1 hc s hs
      simpa using this
    · rw [if_neg h1]
      intro s hs
      rcases List.mem_cons.1 hs with rfl | hs'
      · simpa using h1
      · refine ih ?_ s hs'
        rw [List.countP_cons, if_neg] at h
        · simpa using h
        · simpa using h1

/-- C6 (amended): constructing a group-ACV estimator with the `"nested"`
scheme and an explicit subset list containing the model-0-only subset does
not fail: `_set_subsets` silently deletes the first such subset before
nesting, and construction succeeds (with the offending subset dropped)
whenever the list holds at most one `np.allclose`-match of `[0]`. -/
theorem setSubsets_nested_drops_trivial (nmodels : ℕ) (subs : List (List ℕ))
    (h : subs.countP (fun s => allZeroSubset s) ≤ 1) :
    ∃ nested, setSubsets nmodels (some subs) "nested"
        = Except.ok (nested, allocationMatrixNested nested.length) ∧
      nested.Perm (removeFirstZeroSubset subs) ∧
      ∀ s ∈ nested, allZeroSubset s = false := by
  have hall := removeFirstZeroSubset_no_zero subs h
  have hany : (removeFirstZeroSubset subs).any allZeroSubset = false := by
    rw [List.any_eq_false]
    intro s hs
    simpa using hall s hs
  refine ⟨stableSortDescNestKey nmodels (removeFirstZeroSubset subs),
    ?_, stableSortDescNestKey_perm _ _, ?_⟩
  · simp [setSubsets, nestSubsets, hany]
  · intro s hs
    exact hall s ((stableSortDescNestKey_perm _ _).subset hs)

/-- Witness for C6's amended statement: `nmodels = 2`, explicit subsets
`[[0], [1], [0, 1]]` containing the trivial subset. -/
theorem setSubsets_nested_drops_trivial_witness :
    ∃ nested, setSubsets 2 (some [[0], [1], [0, 1]]) "nested"
        = Except.ok (nested, allocationMatrixNested nested.length) ∧
      nested.Perm (removeFirstZeroSubset [[0], [1], [0, 1]]) ∧
      ∀ s ∈ nested, allZeroSubset s = false :=
  setSubsets_nested_drops_trivial 2 [[0], [1], [0, 1]] (by decide)

/-- C6 counterexample: the claim — that a `"nested"` construction whose
explicit subset list contains `[0]` fails with an invalid-input error — is
false: at `nmodels = 2` with subsets `[[0], [1], [0, 1]]` the construction
succeeds, silently dropping `[0]`. -/
theorem setSubsets_nested_trivial_counterexample :
    ¬ (∀ (nmodels : ℕ) (subs : List (List ℕ)), [0] ∈ subs →
        ∃ e, setSubsets nmodels (some subs) "nested" = Except.error e) := by
  intro h
  obtain ⟨e, he⟩ := h 2 [[0], [1], [0, 1]] (by simp)
  have hok : setSubsets 2 (some [[0], [1], [0, 1]]) "nested"
      = Except.ok ([[0, 1], [1]], allocationMatrixNested 2) := by rfl
  rw [hok] at he
  exact Except.noConfusion he

end PyApprox

namespace PyApprox

/-! ## Claim C3: the generic Newton solver -/

theorem newtonLoop_spec (rnorm : α → ℚ) (step : α → α) (tol : ℚ)
    (relError : Bool) (r0 : ℚ) (init : α) (maxiters : ℕ) :
    ∀ (f it : ℕ), it + f = maxiters →
      (∀ x, newtonLoop rnorm step tol relError r0 f it (step^[it] init)
          = Except.ok x → ∃ k, 1 ≤ k ∧ k ≤ maxiters ∧ x = step^[k] init ∧
            (relError = false → rnorm x < tol) ∧
            (relError = true → rnorm x < tol * r0)) ∧
      (∀ e, newtonLoop rnorm step tol relError r0 f it (step^[it] init)
          = Except.error e →
        e = NewtonErr.iterLimit (rnorm (step^[maxiters] init))) := by
  intro f
  induction f with
  | zero =>
    intro it hinv
    have hit : it = maxiters := by omega
    constructor
    · intro x hx
      simp only [newtonLoop] at hx
      split_ifs at hx with h1 h2
      · cases hx
        refine ⟨it, h1.1, by omega, rfl, fun _ => h1.2.2, fun hre => ?_⟩
        rw [h1.2.1] at hre
        exact Bool.noConfusion hre
      · cases hx
        refine ⟨it, h2.1, by omega, rfl, fun hre => ?_, fun _ => h2.2.2⟩
        rw [h2.2.1] at hre
        exact Bool.noConfusion hre
    · intro e he
      simp only [newtonLoop] at he
      split_ifs at he with h1 h2
      cases he
      rw [hit]
  | succ m ih =>
    intro it hinv
    have hstep : step (step^[it] init) = step^[it + 1] init :=
      (Function.iterate_succ_apply' step it init).symm
    constructor
    · intro x hx
      simp only [newtonLoop] at hx
      split_ifs at hx with h1 h2
      · cases hx
        refine ⟨it, h1.1, by omega, rfl, fun _ => h1.2.2, fun hre => ?_⟩
        rw [h1.2.1] at hre
        exact Bool.noConfusion hre
      · cases hx
        refine ⟨it, h2.1, by omega, rfl, fun hre => ?_, fun _ => h2.2.2⟩
        rw [h2.2.1] at hre
        exact Bool.noConfusion hre
      · rw [hstep] at hx
        exact (ih (it + 1) (by omega)).1 x hx
    · intro e he
      simp only [newtonLoop] at he
      split_ifs at he with h1 h2
      rw [hstep] at he
      exact (ih (it + 1) (by omega)).2 e he

/-- C3: the generic Newton solver never declares convergence at iteration 0 —
a returned iterate is always the result of at least one completed update step
(`x = step^[k] init` with `1 ≤ k`), even when the initial residual norm is
already below tolerance — and when the iteration cap is reached first it
fails with an iteration-limit error carrying the final residual norm
(the norm of the `maxiters`-th iterate) instead of returning an iterate. -/
theorem newton_solve_spec (rnorm : α → ℚ) (step : α → α) (tol : ℚ)
    (maxiters : ℕ) (relError : Bool) (init : α) :
    (∀ x, newton_solve rnorm step tol maxiters relError init = Except.ok x →
      ∃ k, 1 ≤ k ∧ k ≤ maxiters ∧ x = step^[k] init ∧
        (relError = false → rnorm x < tol) ∧
        (relError = true → rnorm x < tol * rnorm init)) ∧
    (∀ e, newton_solve rnorm step tol maxiters relError init = Except.error e →
      e = NewtonErr.iterLimit (rnorm (step^[maxiters] init))) := by
  have h := newtonLoop_spec rnorm step tol relError (rnorm init) init maxiters
    maxiters 0 (by omega)
  simpa [newton_solve] using h

/-- Witness for C3 at a concrete run: `rnorm = |·|`, the contractive step
`x ↦ 0`, tolerance 1, cap 5, initial guess 5; the solver returns `0`, and the
theorem certifies that at least one step was taken. -/
theorem newton_solve_spec_witness :
    ∃ k, 1 ≤ k ∧ k ≤ 5 ∧ (0 : ℚ) = (fun _ : ℚ => (0 : ℚ))^[k] 5 ∧
      (false = false → |(0 : ℚ)| < 1) ∧
      (false = true → |(0 : ℚ)| < 1 * |(5 : ℚ)|) :=
  (newton_solve_spec (fun x : ℚ => |x|) (fun _ => 0) 1 5 false 5).1 0
    (by norm_num [newton_solve, newtonLoop])

end PyApprox

namespace PyApprox

/-! ## Claim C7: the covariance is not defensively isolated -/

/-- C7 (code bug): `_check_cov` makes a defensive copy of the covariance, but
`__init__` later rebinds `self._cov = asarray(cov)`, a tensor sharing the
caller's array memory.  At the concrete store holding the caller's `2×2`
identity covariance: the estimator's covariance reference aliases the
caller's array; the discarded defensive copy still holds the original; after
the caller's in-place write `cov[0,0] = 2`, a value the estimator
subsequently computes from its stored covariance (the joint subset covariance
`Σ` for the single subset `{0,1}` with one sample) differs from the value
computed before the write — contradicting the claimed read-only isolation. -/
theorem groupacv_cov_defensive_copy_discarded :
    (groupACVInitCov [[[1, 0], [0, 1]]] 0).2.covRef = 0 ∧
    readArray (groupACVInitCov [[[1, 0], [0, 1]]] 0).1
      (groupACVInitCov [[[1, 0], [0, 1]]] 0).2.checkCovRef = [[1, 0], [0, 1]] ∧
    readArray (writeArrayEntry (groupACVInitCov [[[1, 0], [0, 1]]] 0).1 0 0 0 2)
      (groupACVInitCov [[[1, 0], [0, 1]]] 0).2.covRef = [[2, 0], [0, 1]] ∧
    estimatorSigmaFromStore
        (writeArrayEntry (groupACVInitCov [[[1, 0], [0, 1]]] 0).1 0 0 0 2)
        (groupACVInitCov [[[1, 0], [0, 1]]] 0).2
        [[0, 1]] (allocationMatrixIS 1) [1]
      ≠ estimatorSigmaFromStore (groupACVInitCov [[[1, 0], [0, 1]]] 0).1
        (groupACVInitCov [[[1, 0], [0, 1]]] 0).2
        [[0, 1]] (allocationMatrixIS 1) [1] := by
  refine ⟨rfl, rfl, ?_, ?_⟩
  · norm_num [groupACVInitCov, writeArrayEntry, readArray, npCopy, allocArray,
      asarrayRef]
  · norm_num [estimatorSigmaFromStore, groupACVInitCov, writeArrayEntry,
      readArray, npCopy, allocArray, asarrayRef, groupedAcvSigma,
      groupedAcvSigmaBlockAt, groupedAcvSigmaBlock, nintersectSamples,
      partitionsIntersect, allocationMatrixIS, eyeMat, mAt, vAt,
      List.range_succ]

end PyApprox

namespace PyApprox

/-! ## Claim C10: `insert_pilot_values` returns an empty list -/

/-- C10: on every input on which `insert_pilot_values` does not raise, the
returned value (`new_values_per_model`) is the empty list; the spliced pilot
values are observable only through the mutated `values_per_model` argument
(the second component of the model's result). -/
theorem insert_pilot_values_returns_empty (st : PilotSpliceState)
    (pilotValues valuesPerModel : List Mat) (out : List Mat × List Mat)
    (h : insert_pilot_values st pilotValues valuesPerModel = Except.ok out) :
    out.1 = [] := by
  simp only [insert_pilot_values] at h
  split at h
  · exact Except.noConfusion h
  · split at h
    · exact Except.noConfusion h
    · cases h
      rfl

/-- Witness for C10 at a concrete non-raising input: one model, subset
`{0}`, one partition with rounded count 5, splits `(0, 1)`, one pilot value
and one fresh value. -/
theorem insert_pilot_values_returns_empty_witness :
    ∃ out, insert_pilot_values
        { subsets := [[0]], partitionsPerModelHf := [1],
          roundedNpartitionSamples := [5], optSampleSplits := [[(0, 1)]] }
        [[[1]]] [[[0]]] = Except.ok out ∧ out.1 = [] := by
  have hok : insert_pilot_values
      { subsets := [[0]], partitionsPerModelHf := [1],
        roundedNpartitionSamples := [5], optSampleSplits := [[(0, 1)]] }
      [[[1]]] [[[0]]] = Except.ok ([], [[[1], [0]]]) := by
    norm_num [insert_pilot_values, insertPilotLoop, numpyTruthy,
      activeHfPartitions, argmaxFirst, vAt, pySliceTo, pySliceFrom,
      List.range_succ]
  exact ⟨([], [[[1], [0]]]), hok,
    insert_pilot_values_returns_empty _ _ _ _ hok⟩

end PyApprox

namespace PyApprox

/-! ## Claim C4: trials are schedule-independent -/

theorem poolRun_foldl_length {τ : Type} (f : ℕ → τ) (sched : List ℕ) :
    ∀ acc : List (Option τ),
      (sched.foldl (fun a i => a.set i (some (f i))) acc).length
        = acc.length := by
  induction sched with
  | nil => intro acc; rfl
  | cons i rest ih =>
    intro acc
    simp only [List.foldl_cons]
    rw [ih]
    exact List.length_set acc i _

theorem poolRun_foldl_getElem {τ : Type} (f : ℕ → τ) (sched : List ℕ) :
    ∀ (acc : List (Option τ)) (j : ℕ), j < acc.length →
      (sched.foldl (fun a i => a.set i (some (f i))) acc)[j]?
        = if j ∈ sched then some (some (f j)) else acc[j]? := by
  induction sched with
  | nil => intro acc j _; simp
  | cons i rest ih =>
    intro acc j hj
    simp only [List.foldl_cons]
    rw [ih (acc.set i (some (f i))) j (by simpa using hj)]
    by_cases hjr : j ∈ rest
    · simp [hjr]
    · by_cases hji : j = i
      · subst hji
        simp [hjr, List.getElem?_set_eq_of_lt _ hj]
      · simp [hjr, hji, List.getElem?_set_ne (Ne.symm hji)]

/-- C4: for any trial count, the variance-estimation loop produces exactly
the per-trial results of the pure per-index trial function, whether run
sequentially (`max_eval_concurrency = 1`) or over a worker pool executing the
trials in an arbitrary order `sched` (any permutation of the trial indices):
each trial's random stream is seeded solely by its own index, so trial `ii`'s
output is `estimateComponents drawTrial postprocess ii`, independent of
concurrency and scheduling order. -/
theorem estimate_components_loop_deterministic {σ τ : Type}
    (drawTrial : ℕ → σ) (postprocess : σ → τ) (ntrials conc : ℕ)
    (sched : List ℕ) (hsched : sched.Perm (List.range ntrials)) :
    estimateComponentsLoop drawTrial postprocess ntrials conc sched
      = (List.range ntrials).map
          (fun ii => some (estimateComponents drawTrial postprocess ii)) := by
  by_cases hc : conc = 1
  · simp [estimateComponentsLoop, hc]
  · simp only [estimateComponentsLoop, hc, if_false]
    apply List.ext_getElem?
    intro j
    by_cases hj : j < ntrials
    · rw [poolRunSched, poolRun_foldl_getElem _ _ _ j (by simpa using hj)]
      have hmem : j ∈ sched := hsched.mem_iff.2 (List.mem_range.2 hj)
      simp [hmem, hj]
    · have hle : ntrials ≤ j := by omega
      rw [poolRunSched]
      rw [List.getElem?_eq_none (by rw [poolRun_foldl_length]; simpa using hle)]
      rw [List.getElem?_eq_none (by simpa using hle)]

/-- Witness for C4: two trials executed by a pool in reversed order give the
sequential results. -/
theorem estimate_components_loop_deterministic_witness :
    estimateComponentsLoop (fun i => i) (fun s : ℕ => s * 10) 2 2 [1, 0]
      = (List.range 2).map
          (fun ii => some (estimateComponents (fun i => i)
            (fun s : ℕ => s * 10) ii)) :=
  estimate_components_loop_deterministic (fun i => i) (fun s => s * 10) 2 2
    [1, 0] (by decide)

end PyApprox

namespace PyApprox

/-! ## Claim C2: the joint subset covariance blocks -/

theorem mTranspose_map_map {α β : Type} (l1 : List α) (l2 : List β)
    (f : α → β → ℚ) (h1 : l1 ≠ []) :
    mTranspose (l1.map (fun i => l2.map (fun j => f i j)))
      = l2.map (fun j => l1.map (fun i => f i j)) := by
  obtain ⟨a, l1', rfl⟩ := List.exists_cons_of_ne_nil h1
  have hhead : ((a :: l1').map (fun i => l2.map (fun j => f i j))).headD []
      = l2.map (fun j => f a j) := rfl
  unfold mTranspose
  rw [hhead, List.length_map]
  apply List.ext_getElem
  · simp
  · intro n hn hn'
    have hnl2 : n < l2.length := by simpa using hn'
    rw [List.getElem_map, List.getElem_range, List.getElem_map, List.map_map]
    apply List.map_congr_left
    intro i _
    simp only [Function.comp_apply, vAt]
    rw [List.getD_eq_getElem _ _ (by simpa using hnl2), List.getElem_map]

theorem nintersectSamples_symm (amat : Mat) (v : Vec) (ii jj : ℕ) :
    nintersectSamples amat v ii jj = nintersectSamples amat v jj ii := by
  simp only [nintersectSamples, partitionsIntersect]
  congr 1
  apply List.map_congr_left
  intro k _
  rw [add_comm (mAt amat ii k) (mAt amat jj k)]

/-- C2: every block of the joint subset covariance `Σ` equals the model
covariance restricted to the two subsets, Hadamard-scaled by (samples in the
partitions shared by the two subsets) divided by (total samples of the first
subset × total samples of the second subset), and is the zero block whenever
either subset has zero total samples.  Stated for a symmetric model
covariance (the data-model invariant) and non-empty subsets. -/
theorem grouped_acv_sigma_block_spec (subsets : List (List ℕ)) (amat : Mat)
    (npart : Vec) (cov : Mat) (ii jj : ℕ)
    (hsym : ∀ i j, mAt cov i j = mAt cov j i)
    (hnn : ∀ v ∈ npart, 0 ≤ v)
    (hii : subsets.getD ii [] ≠ []) (hjj : subsets.getD jj [] ≠ []) :
    groupedAcvSigmaBlockAt subsets amat npart cov ii jj
      = (if nintersectSamples amat npart ii ii = 0 ∨
            nintersectSamples amat npart jj jj = 0 then
          (subsets.getD ii []).map
            (fun _ => (subsets.getD jj []).map (fun _ => (0 : ℚ)))
        else
          (subsets.getD ii []).map (fun i => (subsets.getD jj []).map (fun j =>
            mAt cov i j * nintersectSamples amat npart ii jj /
              (nintersectSamples amat npart ii ii *
                nintersectSamples amat npart jj jj)))) := by
  clear hnn
  rcases lt_trichotomy ii jj with hlt | heq | hgt
  · -- strictly upper block: transpose of the mirror block
    have hne : ¬ ii = jj := by omega
    have hnlt : ¬ jj < ii := by omega
    simp only [groupedAcvSigmaBlockAt, hne, hnlt, if_false]
    by_cases hz : nintersectSamples amat npart jj jj *
        nintersectSamples amat npart ii ii = 0
    · rw [groupedAcvSigmaBlock, if_pos hz]
      rw [mTranspose_map_map _ _ (fun _ _ => (0 : ℚ)) hjj]
      rw [if_pos ((mul_eq_zero.1 hz).symm :
        nintersectSamples amat npart ii ii = 0 ∨
          nintersectSamples amat npart jj jj = 0)]
    · rw [groupedAcvSigmaBlock, if_neg hz]
      rw [mTranspose_map_map _ _
        (fun j i => mAt cov j i * nintersectSamples amat npart jj ii /
          (nintersectSamples amat npart jj jj *
            nintersectSamples amat npart ii ii)) hjj]
      rw [if_neg (fun hor => hz (mul_eq_zero.2 hor.symm) :
        ¬ (nintersectSamples amat npart ii ii = 0 ∨
          nintersectSamples amat npart jj jj = 0))]
      apply List.map_congr_left
      intro i _
      apply List.map_congr_left
      intro j _
      rw [hsym j i, nintersectSamples_symm amat npart jj ii,
        mul_comm (nintersectSamples amat npart jj jj)
          (nintersectSamples amat npart ii ii)]
  · -- diagonal block
    subst heq
    simp only [groupedAcvSigmaBlockAt, if_pos rfl]
    rw [groupedAcvSigmaBlock]
    by_cases hz : nintersectSamples amat npart ii ii = 0
    · rw [if_pos (mul_self_eq_zero.2 hz), if_pos (Or.inl hz)]
      simp
    · rw [if_neg (fun h => hz (mul_self_eq_zero.1 h)),
        if_neg (fun h => Or.elim h hz hz)]
      simp
  · -- strictly lower block
    have hne : ¬ ii = jj := by omega
    simp only [groupedAcvSigmaBlockAt, hne, if_false, if_pos hgt]
    rw [groupedAcvSigmaBlock]
    by_cases hz : nintersectSamples amat npart ii ii *
        nintersectSamples amat npart jj jj = 0
    · rw [if_pos hz, if_pos (mul_eq_zero.1 hz)]
    · rw [if_neg hz, if_neg (fun hor => hz (mul_eq_zero.2 hor))]

/-- Witness for C2 at a concrete instance: subsets `{0}` and `{0, 1}` under
the `"is"` allocation, partition samples `(2, 3)`, symmetric covariance
`[[4, 1], [1, 9]]`, block `(0, 1)`. -/
theorem grouped_acv_sigma_block_spec_witness :
    groupedAcvSigmaBlockAt [[0], [0, 1]] (allocationMatrixIS 2) [2, 3]
        [[4, 1], [1, 9]] 0 1
      = (if nintersectSamples (allocationMatrixIS 2) [2, 3] 0 0 = 0 ∨
            nintersectSamples (allocationMatrixIS 2) [2, 3] 1 1 = 0 then
          ([0] : List ℕ).map (fun _ => ([0, 1] : List ℕ).map (fun _ => (0 : ℚ)))
        else
          ([0] : List ℕ).map (fun i => ([0, 1] : List ℕ).map (fun j =>
            mAt [[4, 1], [1, 9]] i j *
              nintersectSamples (allocationMatrixIS 2) [2, 3] 0 1 /
              (nintersectSamples (allocationMatrixIS 2) [2, 3] 0 0 *
                nintersectSamples (allocationMatrixIS 2) [2, 3] 1 1)))) :=
  grouped_acv_sigma_block_spec [[0], [0, 1]] (allocationMatrixIS 2) [2, 3]
    [[4, 1], [1, 9]] 0 1
    (by
      intro i j
      rcases i with _ | _ | i <;> rcases j with _ | _ | j <;>
        simp [mAt, vAt])
    (by norm_num)
    (by simp)
    (by simp)

end PyApprox

namespace PyApprox

/-! ## Claim C9: one factorization, reused at every implicit time step -/

theorem transientLoop_events {φ : Type} (deps : TransientDeps φ)
    (method : TimeStepMethod) (dt finalTime dtTol : ℚ) (cmat : Mat)
    (forcing : ℚ → Vec) (factors : φ) :
    ∀ (fuel : ℕ) (time : ℚ) (sol finalSol : Vec)
      (events : List (TransientEvent φ)),
      transientLoop deps method dt finalTime dtTol cmat forcing factors fuel
          time sol = some (finalSol, events) →
      ∃ n, events = List.replicate n (TransientEvent.solveWith factors) := by
  intro fuel
  induction fuel with
  | zero =>
    intro time sol finalSol events h
    exact Option.noConfusion h
  | succ m ih =>
    intro time sol finalSol events h
    simp only [transientLoop] at h
    split_ifs at h with ht
    · rcases hrec : transientLoop deps method dt finalTime dtTol cmat forcing
          factors m (min (time + dt) finalTime)
          (implicitTimeStep deps method dt cmat forcing factors sol time).1 with
        _ | pr
      · rw [hrec] at h
        exact Option.noConfusion h
      · obtain ⟨fs, tail⟩ := pr
        rw [hrec] at h
        cases h
        obtain ⟨n, hn⟩ := ih _ _ _ tail hrec
        refine ⟨n + 1, ?_⟩
        simp [implicitTimeStep, hn, List.replicate_succ]
    · cases h
      exact ⟨0, rfl⟩

/-- C9: for a `"backward-euler"` or `"crank-nicholson"` transient solve, the
event trace starts with the single factorization of the boundary-adjusted
matrix `I - θ·Δt·L` (θ = 1 for backward Euler, ½ for Crank-Nicolson, `L` the
sign-flipped spatial operator), performed before the time loop, and every
subsequent event is a linear solve against exactly that cached
factorization — the matrix is never re-formed or re-factorized. -/
theorem transient_solve_implicit_single_factorization {φ : Type}
    (deps : TransientDeps φ) (method : TimeStepMethod) (dt finalTime : ℚ)
    (cmat : Mat) (forcing : ℚ → Vec) (initialSol : Vec) (fuel : ℕ)
    (sols : Vec) (events : List (TransientEvent φ))
    (hm : method = TimeStepMethod.backwardEuler ∨
      method = TimeStepMethod.crankNicholson)
    (hrun : transientSolveImplicit deps method dt finalTime cmat forcing
      initialSol fuel = some (sols, events)) :
    ∃ nsteps, events
      = TransientEvent.factorize (deps.bcMat (matAdd (eyeMat cmat.length)
          (matSmul (-((if method = TimeStepMethod.backwardEuler then (1 : ℚ)
            else 1 / 2) * dt)) cmat)))
        :: List.replicate nsteps (TransientEvent.solveWith
          (deps.qr (deps.bcMat (matAdd (eyeMat cmat.length)
            (matSmul (-((if method = TimeStepMethod.backwardEuler then (1 : ℚ)
              else 1 / 2) * dt)) cmat))))) := by
  have hmat : implicitTimestepMatrix method dt cmat
      = matAdd (eyeMat cmat.length)
          (matSmul (-((if method = TimeStepMethod.backwardEuler then (1 : ℚ)
            else 1 / 2) * dt)) cmat) := by
    rcases hm with rfl | rfl
    · rw [show (if (TimeStepMethod.backwardEuler = TimeStepMethod.backwardEuler)
          then (1 : ℚ) else 1 / 2) = 1 from if_pos rfl, one_mul]
      rfl
    · rw [show (if (TimeStepMethod.crankNicholson = TimeStepMethod.backwardEuler)
          then (1 : ℚ) else 1 / 2) = 1 / 2 from
          if_neg (fun h => TimeStepMethod.noConfusion h)]
      rw [show (-((1 : ℚ) / 2 * dt)) = -(dt / 2) from by ring]
      rfl
  simp only [transientSolveImplicit] at hrun
  rcases hloop : transientLoop deps method dt finalTime (1 / 10 ^ 12) cmat
      forcing (deps.qr (deps.bcMat (implicitTimestepMatrix method dt cmat)))
      fuel 0 initialSol with _ | pr
  · rw [hloop] at hrun
    exact Option.noConfusion hrun
  · obtain ⟨fs, ev⟩ := pr
    rw [hloop] at hrun
    cases hrun
    obtain ⟨n, hn⟩ := transientLoop_events deps method dt finalTime
      (1 / 10 ^ 12) cmat forcing _ fuel 0 initialSol _ ev hloop
    refine ⟨n, ?_⟩
    rw [hn, hmat]

/-- Witness for C9 at a concrete backward-Euler run: one spatial point,
`Δt = 1`, final time 1, spatial operator `[[0]]`, zero forcing; the solve
performs one factorization of `[[1]]` followed by solves against it. -/
theorem transient_solve_implicit_single_factorization_witness :
    ∃ nsteps,
      ([TransientEvent.factorize ([[1]] : Mat), TransientEvent.solveWith [[1]]]
          : List (TransientEvent Mat))
        = TransientEvent.factorize (transientDepsId.bcMat
            (matAdd (eyeMat ([[(0 : ℚ)]] : Mat).length)
              (matSmul (-((if TimeStepMethod.backwardEuler
                  = TimeStepMethod.backwardEuler then (1 : ℚ) else 1 / 2) * 1))
                [[0]])))
          :: List.replicate nsteps (TransientEvent.solveWith
            (transientDepsId.qr (transientDepsId.bcMat
              (matAdd (eyeMat ([[(0 : ℚ)]] : Mat).length)
                (matSmul (-((if TimeStepMethod.backwardEuler
                    = TimeStepMethod.backwardEuler then (1 : ℚ) else 1 / 2) * 1))
                  [[0]]))))) :=
  transient_solve_implicit_single_factorization transientDepsId
    TimeStepMethod.backwardEuler 1 1 [[0]] (fun _ => [0]) [0] 2 [0]
    [TransientEvent.factorize [[1]], TransientEvent.solveWith [[1]]]
    (Or.inl rfl)
    (by norm_num [transientSolveImplicit, transientLoop, implicitTimeStep,
      implicitTimeStepRhs, implicitTimestepMatrix, transientDepsId, matAdd,
      matSmul, eyeMat, matVec, vecAdd, vecSmul, dot, List.range_succ])

end PyApprox

namespace PyApprox

/-! ## Claim C8: the reaction-PDE Newton divergence test -/

theorem getD_range_map (f : ℕ → ℚ) (n k : ℕ) (h : k < n) :
    ((List.range n).map f).getD k 0 = f k := by
  rw [List.getD_eq_getElem _ _ (by simpa using h), List.getElem_map,
    List.getElem_range]

theorem reactionLoop_error_iff (rnorm : α → ℚ) (step : α → α) (tol : ℚ)
    (maxiters : ℕ) (init : α) :
    ∀ (f it : ℕ), it + f = maxiters + 1 →
      (reactionLoop rnorm step tol f it (step^[it] init)
          ((List.range it).map (fun j => rnorm (step^[j] init)))
        = Except.error "Newton solve diverged"
      ↔ ∃ k, it ≤ k ∧
          (∀ j, it ≤ j → j < k →
            ¬(rnorm (step^[j] init) < tol) ∧ ¬(maxiters < j) ∧
              ¬(4 < j ∧ rnorm (step^[j - 5] init) < rnorm (step^[j] init))) ∧
          ¬(rnorm (step^[k] init) < tol) ∧ ¬(maxiters < k) ∧
          4 < k ∧ rnorm (step^[k - 5] init) < rnorm (step^[k] init)) := by
  intro f
  induction f with
  | zero =>
    intro it hinv
    constructor
    · intro h
      exfalso
      simp only [reactionLoop] at h
      split_ifs at h
    · rintro ⟨k, hk, _, hdiv⟩
      exact absurd (show maxiters < k by omega) hdiv.2.1
  | succ m ih =>
    intro it hinv
    have hit : it ≤ maxiters := by omega
    have hnorms : (List.range it).map (fun j => rnorm (step^[j] init))
        ++ [rnorm (step^[it] init)]
        = (List.range (it + 1)).map (fun j => rnorm (step^[j] init)) := by
      simp [List.range_succ]
    have hgetD : ((List.range (it + 1)).map
          (fun j => rnorm (step^[j] init))).getD (it - 5) 0
        = rnorm (step^[it - 5] init) :=
      getD_range_map _ _ _ (by omega)
    by_cases htol : rnorm (step^[it] init) < tol
    · constructor
      · intro h
        simp only [reactionLoop] at h
        rw [if_pos htol] at h
        exact Except.noConfusion h
      · rintro ⟨k, hk, hpre, hdiv⟩
        exfalso
        rcases eq_or_lt_of_le hk with rfl | hklt
        · exact hdiv.1 htol
        · exact ((hpre it (le_refl it) hklt).1) htol
    · by_cases hdivc : 4 < it ∧
          rnorm (step^[it - 5] init) < rnorm (step^[it] init)
      · constructor
        · intro _
          exact ⟨it, le_refl it,
            fun j hj1 hj2 => absurd (lt_of_le_of_lt hj1 hj2) (lt_irrefl it),
            htol, by omega, hdivc⟩
        · intro _
          simp only [reactionLoop]
          rw [if_neg htol, hnorms]
          rw [if_pos (by rw [hgetD]; exact hdivc)]
      · have hstep : step (step^[it] init) = step^[it + 1] init :=
          (Function.iterate_succ_apply' step it init).symm
        have handoff : reactionLoop rnorm step tol (m + 1) it (step^[it] init)
              ((List.range it).map (fun j => rnorm (step^[j] init)))
            = reactionLoop rnorm step tol m (it + 1) (step^[it + 1] init)
              ((List.range (it + 1)).map (fun j => rnorm (step^[j] init))) := by
          conv_lhs => rw [reactionLoop]
          rw [if_neg htol, hnorms]
          rw [if_neg (by rw [hgetD]; exact hdivc), hstep]
        rw [handoff]
        rw [ih (it + 1) (by omega)]
        constructor
        · rintro ⟨k, hk, hpre, hdiv⟩
          refine ⟨k, by omega, ?_, hdiv⟩
          intro j hj1 hj2
          rcases eq_or_lt_of_le hj1 with rfl | hj
          · exact ⟨htol, by omega, hdivc⟩
          · exact hpre j (by omega) hj2
        · rintro ⟨k, hk, hpre, hdiv⟩
          have hkne : k ≠ it := by
            rintro rfl
            exact hdivc hdiv.2.2
          exact ⟨k, by omega, fun j hj1 hj2 => hpre j (by omega) hj2, hdiv⟩

/-- C8: the nonlinear reaction-PDE Newton solve fails with the
numerical-divergence error iff some iteration `k ≥ 5` is reached at which the
residual norm exceeds the norm recorded five iterations earlier, while
neither the tolerance test nor the iteration cap ends the loop at `k` (and no
earlier iteration ended the loop). -/
theorem reaction_solve_diverged_iff (rnorm : α → ℚ) (step : α → α) (tol : ℚ)
    (maxiters : ℕ) (init : α) :
    reactionSolve rnorm step tol maxiters init
      = Except.error "Newton solve diverged"
    ↔ ∃ k,
        (∀ j < k, ¬(rnorm (step^[j] init) < tol) ∧ ¬(maxiters < j) ∧
          ¬(4 < j ∧ rnorm (step^[j - 5] init) < rnorm (step^[j] init))) ∧
        ¬(rnorm (step^[k] init) < tol) ∧ ¬(maxiters < k) ∧
        4 < k ∧ rnorm (step^[k - 5] init) < rnorm (step^[k] init) := by
  have h := reactionLoop_error_iff rnorm step tol maxiters init
    (maxiters + 1) 0 (by omega)
  simp only [Function.iterate_zero_apply, List.range_zero, List.map_nil] at h
  rw [reactionSolve, h]
  constructor
  · rintro ⟨k, _, hpre, hdiv⟩
    exact ⟨k, fun j hj => hpre j (Nat.zero_le j) hj, hdiv⟩
  · rintro ⟨k, hpre, hdiv⟩
    exact ⟨k, Nat.zero_le k, fun j _ hj => hpre j hj, hdiv⟩

end PyApprox
